import Mathlib

set_option maxRecDepth 8000

/- Verification of the y2logs log parser and query engine
   (src/y2logs_model/src/parser.rs and src/y2logs_model/src/log.rs).

   The nom-based parser is embedded shallowly: a parser consumes a list of
   characters and either succeeds with the remaining input and a value,
   fails (nom Err::Error), or crashes (a Rust panic, reached here through
   chrono NaiveDate::from_ymd / NaiveTime::from_hms and an unwrap on the
   year conversion, which panic on out-of-range values). -/

namespace Y2

variable {α β γ : Type}

inductive PRes (α : Type) where
  | ok : List Char → α → PRes α
  | fail : PRes α
  | crash : PRes α
deriving DecidableEq

def Parser (α : Type) : Type := List Char → PRes α

def pureP (a : α) : Parser α := fun i => .ok i a

def crashP : Parser α := fun _ => .crash

def pbind (p : Parser α) (f : α → Parser β) : Parser β := fun i =>
  match p i with
  | .ok i1 a => f a i1
  | .fail => .fail
  | .crash => .crash

def pmap (f : α → β) (p : Parser α) : Parser β := pbind p (fun a => pureP (f a))

/- nom map_res: a decoding failure of the result becomes a parse failure. -/
def mapResP (p : Parser α) (f : α → Option β) : Parser β := fun i =>
  match p i with
  | .ok i1 a =>
    match f a with
    | some b => .ok i1 b
    | none => .fail
  | .fail => .fail
  | .crash => .crash

def charP (c : Char) : Parser Char := fun i =>
  match i with
  | [] => .fail
  | c2 :: rest => if c2 = c then .ok rest c else .fail

def tagP (t : List Char) : Parser (List Char) := fun i =>
  if t.isPrefixOf i then .ok (i.drop t.length) t else .fail

def digit1 : Parser (List Char) := fun i =>
  match i.takeWhile Char.isDigit with
  | [] => .fail
  | d :: ds => .ok (i.dropWhile Char.isDigit) (d :: ds)

def takeWhileP (p : Char → Bool) : Parser (List Char) := fun i =>
  .ok (i.dropWhile p) (i.takeWhile p)

/- nom take_until: consume everything before the first occurrence of the
   tag; fail when the tag does not occur. -/
def splitUntil (t : List Char) : List Char → Option (List Char × List Char)
  | [] => if t.isPrefixOf [] then some ([], []) else none
  | c :: rest =>
    if t.isPrefixOf (c :: rest) then some ([], c :: rest)
    else (splitUntil t rest).map (fun ab => (c :: ab.1, ab.2))

def takeUntilP (t : List Char) : Parser (List Char) := fun i =>
  match splitUntil t i with
  | some (a, b) => .ok b a
  | none => .fail

def optP (p : Parser α) : Parser (Option α) := fun i =>
  match p i with
  | .ok i1 a => .ok i1 (some a)
  | .fail => .ok i none
  | .crash => .crash

def altP (p q : Parser α) : Parser α := fun i =>
  match p i with
  | .fail => q i
  | r => r

def peekP (p : Parser α) : Parser α := fun i =>
  match p i with
  | .ok _ a => .ok i a
  | .fail => .fail
  | .crash => .crash

def recognizeP (p : Parser α) : Parser (List Char) := fun i =>
  match p i with
  | .ok i1 _ => .ok i1 (i.take (i.length - i1.length))
  | .fail => .fail
  | .crash => .crash

def pairP (p : Parser α) (q : Parser β) : Parser (α × β) :=
  pbind p fun a => pbind q fun b => pureP (a, b)

def delimitedP (p : Parser α) (q : Parser β) (r : Parser γ) : Parser β :=
  pbind p fun _ => pbind q fun b => pbind r fun _ => pureP b

def eofP : Parser (List Char) := fun i =>
  match i with
  | [] => .ok [] []
  | _ :: _ => .fail

/- nom many0, with its infinite-loop protection: an inner success that
   consumes nothing is an error.  Fuel bounds the recursion; parse_string
   passes input length + 1, which never runs out because every inner
   success consumes at least one character. -/
def many0 (p : Parser α) : Nat → Parser (List α)
  | 0 => fun _ => .fail
  | fuel + 1 => fun i =>
    match p i with
    | .fail => .ok i []
    | .crash => .crash
    | .ok i1 a =>
      if i1.length = i.length then .fail
      else
        match many0 p fuel i1 with
        | .ok i2 bs => .ok i2 (a :: bs)
        | .fail => .fail
        | .crash => .crash

/- nom many_till, with the same infinite-loop protection. -/
def manyTillP (p : Parser α) (q : Parser β) : Nat → Parser (List α × β)
  | 0 => fun _ => .fail
  | fuel + 1 => fun i =>
    match q i with
    | .ok i1 b => .ok i1 ([], b)
    | .crash => .crash
    | .fail =>
      match p i with
      | .fail => .fail
      | .crash => .crash
      | .ok i1 a =>
        if i1.length = i.length then .fail
        else
          match manyTillP p q fuel i1 with
          | .ok i2 r => .ok i2 (a :: r.1, r.2)
          | .fail => .fail
          | .crash => .crash

def notCRLF (c : Char) : Bool := !(decide (c = '\r') || decide (c = '\n'))

/- nom not_line_ending (complete): consume up to the next "\r\n" or "\n";
   a lone carriage return is an error. -/
def notLineEnding : Parser (List Char) := fun i =>
  match i.dropWhile notCRLF with
  | [] => .ok [] (i.takeWhile notCRLF)
  | c :: rest =>
    if c = '\r' then
      if rest.head? = some '\n' then .ok (c :: rest) (i.takeWhile notCRLF)
      else .fail
    else .ok (c :: rest) (i.takeWhile notCRLF)

/- chrono model: naive date and time.  from_ymd / from_hms validity. -/

structure NaiveDate where
  year : Nat
  month : Nat
  day : Nat
deriving DecidableEq

structure NaiveTime where
  hour : Nat
  minute : Nat
  second : Nat
deriving DecidableEq

structure NaiveDateTime where
  date : NaiveDate
  time : NaiveTime
deriving DecidableEq

def isLeapYear (y : Nat) : Bool :=
  decide (y % 4 = 0) && (decide (y % 100 ≠ 0) || decide (y % 400 = 0))

def daysInMonth (y m : Nat) : Nat :=
  if m = 2 then (if isLeapYear y then 29 else 28)
  else if m = 4 ∨ m = 6 ∨ m = 9 ∨ m = 11 then 30
  else 31

/- chrono NaiveDate::from_ymd panics outside this range (its maximum year
   is 262143); the year also goes through try_into().unwrap(), which
   panics above i32::MAX - both are modelled as a crash in the parser. -/
def validYmd (y m d : Nat) : Bool :=
  decide (y ≤ 262143) && decide (1 ≤ m) && decide (m ≤ 12) &&
  decide (1 ≤ d) && decide (d ≤ daysInMonth y m)

def validHms (h m s : Nat) : Bool :=
  decide (h ≤ 23) && decide (m ≤ 59) && decide (s ≤ 59)

/- Data model from src/y2logs_model/src/log.rs. -/

inductive Level where
  | Debug | Info | Warn | Error | Fatal | Unknown
deriving DecidableEq

def levelOrd (l : Level) : Nat :=
  match l with
  | .Debug => 0
  | .Info => 1
  | .Warn => 2
  | .Error => 3
  | .Fatal => 4
  | .Unknown => 5

/- TryFrom<u32> for Level; the error string is irrelevant, an Option
   models the Result. -/
def levelTryFrom (v : Nat) : Option Level :=
  match v with
  | 0 => some .Debug
  | 1 => some .Info
  | 2 => some .Warn
  | 3 => some .Error
  | 4 => some .Fatal
  | 5 => some .Unknown
  | _ => none

/- Level::try_from(v).unwrap_or(Level::Unknown), as used in the level
   parser (parser.rs line 127). -/
def levelDecode (v : Nat) : Level := (levelTryFrom v).getD .Unknown

/- impl Display for Level writes the ordinal. -/
def levelDisplay (l : Level) : String := Nat.repr (levelOrd l)

structure Pid where
  val : Nat
deriving DecidableEq

structure Location where
  file : String
  method : Option String
  line : Option Nat
deriving DecidableEq

structure Entry where
  datetime : NaiveDateTime
  level : Level
  hostname : String
  pid : Pid
  component : String
  location : Location
  message : String
deriving DecidableEq

structure Log where
  entries : List Entry
deriving DecidableEq

/- Parsers from src/y2logs_model/src/parser.rs. -/

def digitsToNat (ds : List Char) : Nat :=
  ds.foldl (fun acc c => 10 * acc + (c.toNat - 48)) 0

/- u32::from_str on a run of digits: overflow is an error. -/
def u32FromStr (ds : List Char) : Option Nat :=
  if digitsToNat ds ≤ 4294967295 then some (digitsToNat ds) else none

def number : Parser Nat := mapResP digit1 u32FromStr

def date : Parser NaiveDate :=
  pbind number fun y =>
  pbind (charP '-') fun _ =>
  pbind number fun m =>
  pbind (charP '-') fun _ =>
  pbind number fun d =>
  if validYmd y m d then pureP ⟨y, m, d⟩ else crashP

def time : Parser NaiveTime :=
  pbind number fun h =>
  pbind (charP ':') fun _ =>
  pbind number fun mi =>
  pbind (charP ':') fun _ =>
  pbind number fun s =>
  if validHms h mi s then pureP ⟨h, mi, s⟩ else crashP

def datetime : Parser NaiveDateTime :=
  pbind date fun d =>
  pbind (charP ' ') fun _ =>
  pbind time fun t =>
  pureP ⟨d, t⟩

/- Rust char::is_alphanumeric is Unicode-aware; the ASCII fragment is
   modelled, which is exact on ASCII inputs. -/
def hostname : Parser String :=
  pmap String.mk (takeWhileP fun c =>
    c.isAlphanum || decide (c = '.') || decide (c = '-'))

def pid : Parser Pid :=
  pmap Pid.mk (delimitedP (tagP ['(']) number (tagP [')']))

/- component_name parser (the inner take_while of component). -/
def componentNameP : Parser String :=
  pmap String.mk (takeWhileP fun c =>
    c.isAlphanum || decide (c = '.') || decide (c = '-') ||
    decide (c = '_') || decide (c = '+') || decide (c = ':'))

def component : Parser String :=
  delimitedP (tagP ['[']) componentNameP (tagP [']'])

def digits_and_hyphen : Parser (List Char) :=
  recognizeP (pairP digit1 (charP '-'))

/- The two anonymous parsers inside parse_message. -/
def msgChunk : Parser (List Char) :=
  recognizeP (pairP (optP (charP '\n')) notLineEnding)

def msgEnd : Parser (List Char) :=
  altP (pmap (fun _ => ([] : List Char))
             (pairP (charP '\n') (peekP digits_and_hyphen)))
       eofP

def parse_message : Parser String := fun i =>
  match manyTillP msgChunk msgEnd (i.length + 1) i with
  | .ok i1 r => .ok i1 (String.mk r.1.flatten)
  | .fail => .fail
  | .crash => .crash

def level : Parser Level :=
  pmap levelDecode (delimitedP (charP '<') number (charP '>'))

def parse_filename : Parser String :=
  pmap String.mk (takeWhileP fun c =>
    c.isAlphanum || decide (c = '.') || decide (c = '/') || decide (c = '_'))

def parse_method : Parser String :=
  pmap String.mk (delimitedP (charP '(') (takeUntilP [')']) (charP ')'))

def parse_line_number : Parser Nat :=
  pmap (fun x => x.2) (pairP (charP ':') number)

def parse_location : Parser Location :=
  pbind parse_filename fun f =>
  pbind (optP parse_method) fun m =>
  pbind (optP parse_line_number) fun l =>
  pureP ⟨f, m, l⟩

def parse_line : Parser Entry :=
  pbind datetime fun dt =>
  pbind (charP ' ') fun _ =>
  pbind level fun lv =>
  pbind (charP ' ') fun _ =>
  pbind hostname fun hn =>
  pbind pid fun pd =>
  pbind (charP ' ') fun _ =>
  pbind component fun cp =>
  pbind (charP ' ') fun _ =>
  pbind parse_location fun loc =>
  pbind (charP ' ') fun _ =>
  pbind parse_message fun msg =>
  pureP { datetime := dt, level := lv, hostname := hn, pid := pd,
          component := cp, location := loc, message := msg }

inductive ParseOutcome where
  | ok : List Entry → ParseOutcome
  | err : ParseOutcome
  | crashed : ParseOutcome
deriving DecidableEq

def parse_string (i : List Char) : ParseOutcome :=
  match many0 parse_line (i.length + 1) i with
  | .ok _ entries => .ok entries
  | .fail => .err
  | .crash => .crashed

def isErr (o : ParseOutcome) : Bool :=
  match o with
  | .err => true
  | _ => false

/- Query engine from src/y2logs_model/src/log.rs.  chrono Ord on
   NaiveDateTime is the chronological (lexicographic) order on the six
   components. -/

def ndtList (a : NaiveDateTime) : List Nat :=
  [a.date.year, a.date.month, a.date.day, a.time.hour, a.time.minute, a.time.second]

def cmpNat (a b : Nat) : Ordering :=
  if a < b then .lt else if b < a then .gt else .eq

def cmpL : List Nat → List Nat → Ordering
  | a :: l1, b :: l2 => (cmpNat a b).then (cmpL l1 l2)
  | _, _ => .eq

def leLex : List Nat → List Nat → Bool
  | a :: l1, b :: l2 => decide (a < b) || (decide (a = b) && leLex l1 l2)
  | _, _ => true

def ndtCmp (a b : NaiveDateTime) : Ordering := cmpL (ndtList a) (ndtList b)

def ndtLe (a b : NaiveDateTime) : Bool := leLex (ndtList a) (ndtList b)

structure Query where
  log : Log
  level : Option Level
  pid : Option Pid
  component : Option String
  hostname : Option String
  from_datetime : Option NaiveDateTime
  to_datetime : Option NaiveDateTime

/- The filter closure of Query::to_log, with its early returns: each
   set predicate that does not match rejects the entry. -/
def queryMatches (q : Query) (e : Entry) : Bool :=
  if q.level.any fun l => decide (l ≠ e.level) then false
  else if q.pid.any fun p => decide (p ≠ e.pid) then false
  else if q.component.any fun c => decide (c ≠ e.component) then false
  else if q.hostname.any fun h => decide (h ≠ e.hostname) then false
  else if q.from_datetime.any fun d => decide (ndtCmp d e.datetime = .gt) then false
  else if q.to_datetime.any fun d => decide (ndtCmp d e.datetime = .lt) then false
  else true

def Query.to_log (q : Query) : Log :=
  { entries := q.log.entries.filter (fun e => queryMatches q e) }

/- Specification-side predicate, written from the spec's words: every set
   predicate must match, equality on level/pid/component/hostname, and the
   datetime range is inclusive on both ends. -/
def specMatches (q : Query) (e : Entry) : Bool :=
  (q.level.all fun l => decide (l = e.level)) &&
  (q.pid.all fun p => decide (p = e.pid)) &&
  (q.component.all fun c => decide (c = e.component)) &&
  (q.hostname.all fun h => decide (h = e.hostname)) &&
  (q.from_datetime.all fun d => ndtLe d e.datetime) &&
  (q.to_datetime.all fun d => ndtLe e.datetime d)

/- Line-based specification of the message rule: split the input into
   physical lines, and a line starts a new record when it begins with
   one or more digits followed by a hyphen. -/

def splitLines : List Char → List (List Char)
  | [] => [[]]
  | c :: rest =>
    if c = '\n' then [] :: splitLines rest
    else
      match splitLines rest with
      | [] => [[c]]
      | l :: ls => (c :: l) :: ls

def joinLines : List (List Char) → List Char
  | [] => []
  | l :: ls =>
    match ls with
    | [] => l
    | _ :: _ => l ++ '\n' :: joinLines ls

def hyphenAfterDigits : List Char → Bool
  | [] => false
  | c :: rest => if c.isDigit then hyphenAfterDigits rest else decide (c = '-')

/- Starts a new record: one-or-more digits followed by a literal '-'. -/
def startsRecord (l : List Char) : Bool :=
  match l with
  | [] => false
  | c :: rest => c.isDigit && hyphenAfterDigits rest

/- The message a record should carry, per the spec: the remainder of the
   first physical line, plus every subsequent physical line that does not
   start a new record; the second component is the input left over (the
   start of the next record, or nothing). -/
def msgSpec (i : List Char) : List Char × List Char :=
  let ls := splitLines i
  let rest := ls.tail
  (joinLines (ls.headD [] :: rest.takeWhile (fun l => !startsRecord l)),
   joinLines (rest.dropWhile (fun l => !startsRecord l)))

end Y2

namespace Y2

/- Concrete inputs used by the claims. -/

/- The multi-line continuation example from the spec (§8). -/
def exampleInput : String :=
  "2022-08-25 14:28:44 <1> host(100) [comp] file.cc(m):5 first line\ncontinuation line\n2022-08-25 14:28:45 <0> host(100) [comp] file.cc(m):6 next entry"

def exampleEntry1 : Entry :=
  { datetime := ⟨⟨2022, 8, 25⟩, ⟨14, 28, 44⟩⟩, level := .Info,
    hostname := "host", pid := ⟨100⟩, component := "comp",
    location := ⟨"file.cc", some "m", some 5⟩,
    message := "first line\ncontinuation line" }

def exampleEntry2 : Entry :=
  { datetime := ⟨⟨2022, 8, 25⟩, ⟨14, 28, 45⟩⟩, level := .Debug,
    hostname := "host", pid := ⟨100⟩, component := "comp",
    location := ⟨"file.cc", some "m", some 6⟩,
    message := "next entry" }

/- A valid record followed by a line that conforms to no rule of the
   grammar ("1-x" starts like a record but has no datetime). -/
def partialInput : String := "2022-08-25 14:28:44 <1> h(1) [c] f m\n1-x"

def partialEntry : Entry :=
  { datetime := ⟨⟨2022, 8, 25⟩, ⟨14, 28, 44⟩⟩, level := .Info,
    hostname := "h", pid := ⟨1⟩, component := "c",
    location := ⟨"f", none, none⟩, message := "m" }

/- Two spaces after the component: the location is empty. -/
def emptyFileInput : String := "2022-08-25 14:28:44 <1> host(1) [comp]  msg"

def emptyFileEntry : Entry :=
  { datetime := ⟨⟨2022, 8, 25⟩, ⟨14, 28, 44⟩⟩, level := .Info,
    hostname := "host", pid := ⟨1⟩, component := "comp",
    location := ⟨"", none, none⟩, message := "msg" }

/- A record whose datetime components are not zero-padded. -/
def unpaddedInput : String := "2022-8-25 4:8:4 <1> host(1) [comp] f m"

def unpaddedEntry : Entry :=
  { datetime := ⟨⟨2022, 8, 25⟩, ⟨4, 8, 4⟩⟩, level := .Info,
    hostname := "host", pid := ⟨1⟩, component := "comp",
    location := ⟨"f", none, none⟩, message := "m" }

/- A record whose datetime digits are syntactically fine but whose month
   is calendar-invalid: NaiveDate::from_ymd(2022, 13, 1) panics. -/
def invalidMonthInput : String := "2022-13-01 10:00:00 <1> host(1) [comp] f m"

end Y2

namespace Y2

/-- Claim C7: parsing the empty string succeeds and yields an empty entry
sequence, not a ParseError. -/
theorem c7_empty_input_ok : parse_string "".data = ParseOutcome.ok [] := by
  decide

/-- Claim C10 (code evaluation at the failing input): a record whose
datetime digits are syntactically valid but calendar-invalid (month 13)
makes parse_string crash (a Rust panic inside NaiveDate::from_ymd),
contradicting the claim that parse_string is total over all inputs. -/
theorem c10_crash_on_invalid_month :
    parse_string invalidMonthInput.data = ParseOutcome.crashed := by
  decide

/-- Claim C2, counterexample: on an input whose first record is valid and
whose remainder ("1-x") conforms to no rule of the grammar, parse_string
does not return a ParseError: it returns the entry parsed from the valid
prefix, a partial best-effort output. -/
theorem c2_counterexample :
    parse_string partialInput.data = ParseOutcome.ok [partialEntry] ∧
    parse_line "1-x".data = PRes.fail := by
  constructor
  · decide
  · decide

end Y2

namespace Y2

/- Consumption lemmas: every parser returns a suffix no longer than its
   input, and the parsers that nom's loop protections rely on consume at
   least one character on success. -/

def Shrinks (p : Parser α) : Prop :=
  ∀ i i1 a, p i = PRes.ok i1 a → i1.length ≤ i.length

def Consumes (p : Parser α) : Prop :=
  ∀ i i1 a, p i = PRes.ok i1 a → i1.length < i.length

theorem length_dropWhile_le (p : Char → Bool) (l : List Char) :
    (l.dropWhile p).length ≤ l.length := by
  induction l with
  | nil => simp
  | cons c cs ih =>
    by_cases h : p c
    · simp only [List.dropWhile_cons, h, if_true]
      exact Nat.le_succ_of_le ih
    · simp [List.dropWhile_cons, h]

theorem takeWhile_dropWhile_length (p : Char → Bool) (l : List Char) :
    (l.takeWhile p).length + (l.dropWhile p).length = l.length := by
  have h : List.takeWhile p l ++ List.dropWhile p l = l :=
    List.takeWhile_append_dropWhile p l
  have h2 := congrArg List.length h
  rw [List.length_append] at h2
  exact h2

theorem shrinks_pureP (a : α) : Shrinks (pureP a) := by
  intro i i1 b h
  simp only [pureP, PRes.ok.injEq] at h
  obtain ⟨h1, _⟩ := h
  subst h1
  exact Nat.le_refl _

theorem shrinks_crashP : Shrinks (crashP : Parser α) := by
  intro i i1 a h
  simp [crashP] at h

theorem shrinks_pbind {p : Parser α} {f : α → Parser β}
    (hp : Shrinks p) (hf : ∀ a, Shrinks (f a)) : Shrinks (pbind p f) := by
  intro i i2 b h
  cases hpi : p i with
  | ok i1 a =>
    simp only [pbind, hpi] at h
    exact Nat.le_trans (hf a i1 i2 b h) (hp i i1 a hpi)
  | fail => simp [pbind, hpi] at h
  | crash => simp [pbind, hpi] at h

theorem consumes_pbind {p : Parser α} {f : α → Parser β}
    (hp : Consumes p) (hf : ∀ a, Shrinks (f a)) : Consumes (pbind p f) := by
  intro i i2 b h
  cases hpi : p i with
  | ok i1 a =>
    simp only [pbind, hpi] at h
    exact Nat.lt_of_le_of_lt (hf a i1 i2 b h) (hp i i1 a hpi)
  | fail => simp [pbind, hpi] at h
  | crash => simp [pbind, hpi] at h

theorem shrinks_pmap {p : Parser α} (f : α → β) (hp : Shrinks p) :
    Shrinks (pmap f p) :=
  shrinks_pbind hp (fun a => shrinks_pureP (f a))

theorem consumes_pmap {p : Parser α} (f : α → β) (hp : Consumes p) :
    Consumes (pmap f p) :=
  consumes_pbind hp (fun a => shrinks_pureP (f a))

theorem shrinks_mapResP {p : Parser α} (f : α → Option β) (hp : Shrinks p) :
    Shrinks (mapResP p f) := by
  intro i i1 b h
  cases hpi : p i with
  | ok i2 a =>
    cases hfa : f a with
    | some b2 =>
      simp only [mapResP, hpi, hfa, PRes.ok.injEq] at h
      obtain ⟨h1, _⟩ := h
      subst h1
      exact hp _ _ _ hpi
    | none => simp [mapResP, hpi, hfa] at h
  | fail => simp [mapResP, hpi] at h
  | crash => simp [mapResP, hpi] at h

theorem consumes_mapResP {p : Parser α} (f : α → Option β) (hp : Consumes p) :
    Consumes (mapResP p f) := by
  intro i i1 b h
  cases hpi : p i with
  | ok i2 a =>
    cases hfa : f a with
    | some b2 =>
      simp only [mapResP, hpi, hfa, PRes.ok.injEq] at h
      obtain ⟨h1, _⟩ := h
      subst h1
      exact hp _ _ _ hpi
    | none => simp [mapResP, hpi, hfa] at h
  | fail => simp [mapResP, hpi] at h
  | crash => simp [mapResP, hpi] at h

theorem consumes_charP (c : Char) : Consumes (charP c) := by
  intro i i1 a h
  cases i with
  | nil => simp [charP] at h
  | cons c2 rest =>
    simp only [charP] at h
    split at h
    · simp only [PRes.ok.injEq] at h
      obtain ⟨h1, _⟩ := h
      subst h1
      simp
    · cases h

theorem shrinks_charP (c : Char) : Shrinks (charP c) :=
  fun i i1 a h => Nat.le_of_lt (consumes_charP c i i1 a h)

theorem shrinks_tagP (t : List Char) : Shrinks (tagP t) := by
  intro i i1 a h
  simp only [tagP] at h
  split at h
  · simp only [PRes.ok.injEq] at h
    obtain ⟨h1, _⟩ := h
    subst h1
    simp only [List.length_drop]
    omega
  · cases h

theorem consumes_digit1 : Consumes digit1 := by
  intro i i1 a h
  cases ht : i.takeWhile Char.isDigit with
  | nil => simp [digit1, ht] at h
  | cons d ds =>
    simp only [digit1, ht, PRes.ok.injEq] at h
    obtain ⟨h1, _⟩ := h
    subst h1
    have hsplit := takeWhile_dropWhile_length Char.isDigit i
    rw [ht] at hsplit
    simp only [List.length_cons] at hsplit
    omega

theorem shrinks_digit1 : Shrinks digit1 :=
  fun i i1 a h => Nat.le_of_lt (consumes_digit1 i i1 a h)

theorem shrinks_takeWhileP (p : Char → Bool) : Shrinks (takeWhileP p) := by
  intro i i1 a h
  simp only [takeWhileP, PRes.ok.injEq] at h
  obtain ⟨h1, _⟩ := h
  subst h1
  exact length_dropWhile_le p i

theorem splitUntil_append (t : List Char) :
    ∀ i a b, splitUntil t i = some (a, b) → a ++ b = i := by
  intro i
  induction i with
  | nil =>
    intro a b h
    simp only [splitUntil] at h
    split at h
    · simp only [Option.some.injEq, Prod.mk.injEq] at h
      obtain ⟨h1, h2⟩ := h
      subst h1; subst h2; rfl
    · cases h
  | cons c rest ih =>
    intro a b h
    simp only [splitUntil] at h
    split at h
    · simp only [Option.some.injEq, Prod.mk.injEq] at h
      obtain ⟨h1, h2⟩ := h
      subst h1; subst h2; rfl
    · cases hs : splitUntil t rest with
      | none => rw [hs] at h; cases h
      | some ab =>
        obtain ⟨a2, b2⟩ := ab
        rw [hs] at h
        simp only [Option.map_some', Option.some.injEq, Prod.mk.injEq] at h
        obtain ⟨h1, h2⟩ := h
        subst h1; subst h2
        have h3 := ih a2 b2 hs
        simp [List.cons_append, h3]

theorem shrinks_takeUntilP (t : List Char) : Shrinks (takeUntilP t) := by
  intro i i1 a h
  cases hs : splitUntil t i with
  | none => simp [takeUntilP, hs] at h
  | some ab =>
    obtain ⟨a2, b2⟩ := ab
    simp only [takeUntilP, hs, PRes.ok.injEq] at h
    obtain ⟨h1, _⟩ := h
    subst h1
    have h3 := splitUntil_append t i a2 b2 hs
    have hl : a2.length + b2.length = i.length := by
      rw [← h3]; simp
    omega

theorem shrinks_optP {p : Parser α} (hp : Shrinks p) : Shrinks (optP p) := by
  intro i i1 a h
  cases hpi : p i with
  | ok i2 b =>
    simp only [optP, hpi, PRes.ok.injEq] at h
    obtain ⟨h1, _⟩ := h
    subst h1
    exact hp _ _ _ hpi
  | fail =>
    simp only [optP, hpi, PRes.ok.injEq] at h
    obtain ⟨h1, _⟩ := h
    subst h1
    exact Nat.le_refl _
  | crash => simp [optP, hpi] at h

theorem shrinks_altP {p q : Parser α} (hp : Shrinks p) (hq : Shrinks q) :
    Shrinks (altP p q) := by
  intro i i1 a h
  cases hpi : p i with
  | ok i2 b =>
    simp only [altP, hpi, PRes.ok.injEq] at h
    obtain ⟨h1, _⟩ := h
    subst h1
    exact hp _ _ _ hpi
  | fail =>
    simp only [altP, hpi] at h
    exact hq _ _ _ h
  | crash => simp [altP, hpi] at h

theorem shrinks_peekP {p : Parser α} : Shrinks (peekP p) := by
  intro i i1 a h
  cases hpi : p i with
  | ok i2 b =>
    simp only [peekP, hpi, PRes.ok.injEq] at h
    obtain ⟨h1, _⟩ := h
    subst h1
    exact Nat.le_refl _
  | fail => simp [peekP, hpi] at h
  | crash => simp [peekP, hpi] at h

theorem shrinks_recognizeP {p : Parser α} (hp : Shrinks p) :
    Shrinks (recognizeP p) := by
  intro i i1 a h
  cases hpi : p i with
  | ok i2 b =>
    simp only [recognizeP, hpi, PRes.ok.injEq] at h
    obtain ⟨h1, _⟩ := h
    subst h1
    exact hp _ _ _ hpi
  | fail => simp [recognizeP, hpi] at h
  | crash => simp [recognizeP, hpi] at h

theorem shrinks_eofP : Shrinks eofP := by
  intro i i1 a h
  cases i with
  | nil =>
    simp only [eofP, PRes.ok.injEq] at h
    obtain ⟨h1, _⟩ := h
    subst h1
    exact Nat.le_refl _
  | cons c rest => simp [eofP] at h

theorem shrinks_pairP {p : Parser α} {q : Parser β}
    (hp : Shrinks p) (hq : Shrinks q) : Shrinks (pairP p q) :=
  shrinks_pbind hp (fun a => shrinks_pbind hq (fun b => shrinks_pureP (a, b)))

theorem consumes_pairP {p : Parser α} {q : Parser β}
    (hp : Consumes p) (hq : Shrinks q) : Consumes (pairP p q) :=
  consumes_pbind hp (fun a => shrinks_pbind hq (fun b => shrinks_pureP (a, b)))

theorem shrinks_delimitedP {p : Parser α} {q : Parser β} {r : Parser γ}
    (hp : Shrinks p) (hq : Shrinks q) (hr : Shrinks r) :
    Shrinks (delimitedP p q r) :=
  shrinks_pbind hp (fun _ => shrinks_pbind hq (fun b =>
    shrinks_pbind hr (fun _ => shrinks_pureP b)))

theorem shrinks_notLineEnding : Shrinks notLineEnding := by
  intro i i1 a h
  cases hd : i.dropWhile notCRLF with
  | nil =>
    simp only [notLineEnding, hd, PRes.ok.injEq] at h
    obtain ⟨h1, _⟩ := h
    subst h1
    simp
  | cons c rest =>
    simp only [notLineEnding, hd] at h
    split at h
    · split at h
      · simp only [PRes.ok.injEq] at h
        obtain ⟨h1, _⟩ := h
        subst h1
        rw [← hd]
        exact length_dropWhile_le _ i
      · cases h
    · simp only [PRes.ok.injEq] at h
      obtain ⟨h1, _⟩ := h
      subst h1
      rw [← hd]
      exact length_dropWhile_le _ i

end Y2

namespace Y2

theorem shrinks_iteP (c : Prop) [Decidable c] (p q : Parser α)
    (hp : Shrinks p) (hq : Shrinks q) : Shrinks (if c then p else q) := by
  split
  · exact hp
  · exact hq

theorem consumes_number : Consumes number :=
  consumes_mapResP u32FromStr consumes_digit1

theorem shrinks_number : Shrinks number :=
  fun i i1 a h => Nat.le_of_lt (consumes_number i i1 a h)

theorem consumes_date : Consumes date := by
  apply consumes_pbind consumes_number
  intro y
  apply shrinks_pbind (shrinks_charP _)
  intro _
  apply shrinks_pbind shrinks_number
  intro m
  apply shrinks_pbind (shrinks_charP _)
  intro _
  apply shrinks_pbind shrinks_number
  intro d
  exact shrinks_iteP _ _ _ (shrinks_pureP _) shrinks_crashP

theorem shrinks_time : Shrinks time := by
  apply shrinks_pbind shrinks_number
  intro h2
  apply shrinks_pbind (shrinks_charP _)
  intro _
  apply shrinks_pbind shrinks_number
  intro mi
  apply shrinks_pbind (shrinks_charP _)
  intro _
  apply shrinks_pbind shrinks_number
  intro s
  exact shrinks_iteP _ _ _ (shrinks_pureP _) shrinks_crashP

theorem consumes_datetime : Consumes datetime := by
  apply consumes_pbind consumes_date
  intro d
  apply shrinks_pbind (shrinks_charP _)
  intro _
  apply shrinks_pbind shrinks_time
  intro t
  exact shrinks_pureP _

theorem shrinks_level : Shrinks level :=
  shrinks_pmap _ (shrinks_delimitedP (shrinks_charP _) shrinks_number (shrinks_charP _))

theorem shrinks_hostname : Shrinks hostname :=
  shrinks_pmap _ (shrinks_takeWhileP _)

theorem shrinks_pid : Shrinks pid :=
  shrinks_pmap _ (shrinks_delimitedP (shrinks_tagP _) shrinks_number (shrinks_tagP _))

theorem shrinks_componentNameP : Shrinks componentNameP :=
  shrinks_pmap _ (shrinks_takeWhileP _)

theorem shrinks_component : Shrinks component :=
  shrinks_delimitedP (shrinks_tagP _) shrinks_componentNameP (shrinks_tagP _)

theorem shrinks_digits_and_hyphen : Shrinks digits_and_hyphen :=
  shrinks_recognizeP (shrinks_pairP shrinks_digit1 (shrinks_charP _))

theorem shrinks_parse_filename : Shrinks parse_filename :=
  shrinks_pmap _ (shrinks_takeWhileP _)

theorem shrinks_parse_method : Shrinks parse_method :=
  shrinks_pmap _ (shrinks_delimitedP (shrinks_charP _) (shrinks_takeUntilP _) (shrinks_charP _))

theorem shrinks_parse_line_number : Shrinks parse_line_number :=
  shrinks_pmap _ (shrinks_pairP (shrinks_charP _) shrinks_number)

theorem shrinks_parse_location : Shrinks parse_location := by
  apply shrinks_pbind shrinks_parse_filename
  intro f
  apply shrinks_pbind (shrinks_optP shrinks_parse_method)
  intro m
  apply shrinks_pbind (shrinks_optP shrinks_parse_line_number)
  intro l
  exact shrinks_pureP _

theorem shrinks_msgChunk : Shrinks msgChunk :=
  shrinks_recognizeP (shrinks_pairP (shrinks_optP (shrinks_charP _)) shrinks_notLineEnding)

theorem shrinks_msgEnd : Shrinks msgEnd :=
  shrinks_altP (shrinks_pmap _ (shrinks_pairP (shrinks_charP _) shrinks_peekP)) shrinks_eofP

theorem shrinks_manyTillP {p : Parser α} {q : Parser β}
    (hp : Shrinks p) (hq : Shrinks q) : ∀ fuel, Shrinks (manyTillP p q fuel) := by
  intro fuel
  induction fuel with
  | zero => intro i i1 a h; simp [manyTillP] at h
  | succ fuel ih =>
    intro i i1 a h
    simp only [manyTillP] at h
    cases hq1 : q i with
    | ok i2 b =>
      simp only [hq1, PRes.ok.injEq] at h
      obtain ⟨h1, _⟩ := h
      subst h1
      exact hq _ _ _ hq1
    | crash => simp [hq1] at h
    | fail =>
      simp only [hq1] at h
      cases hp1 : p i with
      | fail => simp [hp1] at h
      | crash => simp [hp1] at h
      | ok i2 b =>
        simp only [hp1] at h
        by_cases hl : i2.length = i.length
        · rw [if_pos hl] at h; cases h
        · rw [if_neg hl] at h
          cases hm : manyTillP p q fuel i2 with
          | ok i3 r =>
            simp only [hm, PRes.ok.injEq] at h
            obtain ⟨h1, _⟩ := h
            subst h1
            exact Nat.le_trans (ih _ _ _ hm) (hp _ _ _ hp1)
          | fail => simp [hm] at h
          | crash => simp [hm] at h

theorem shrinks_parse_message : Shrinks parse_message := by
  intro i i1 a h
  simp only [parse_message] at h
  cases hm : manyTillP msgChunk msgEnd (i.length + 1) i with
  | ok i2 r =>
    simp only [hm, PRes.ok.injEq] at h
    obtain ⟨h1, _⟩ := h
    subst h1
    exact shrinks_manyTillP shrinks_msgChunk shrinks_msgEnd _ _ _ _ hm
  | fail => simp [hm] at h
  | crash => simp [hm] at h

theorem consumes_parse_line : Consumes parse_line := by
  apply consumes_pbind consumes_datetime
  intro dt
  apply shrinks_pbind (shrinks_charP _)
  intro _
  apply shrinks_pbind shrinks_level
  intro lv
  apply shrinks_pbind (shrinks_charP _)
  intro _
  apply shrinks_pbind shrinks_hostname
  intro hn
  apply shrinks_pbind shrinks_pid
  intro pd
  apply shrinks_pbind (shrinks_charP _)
  intro _
  apply shrinks_pbind shrinks_component
  intro cp
  apply shrinks_pbind (shrinks_charP _)
  intro _
  apply shrinks_pbind shrinks_parse_location
  intro loc
  apply shrinks_pbind (shrinks_charP _)
  intro _
  apply shrinks_pbind shrinks_parse_message
  intro msg
  exact shrinks_pureP _

/- nom's many0 can only fail when its inner parser succeeds without
   consuming input (or when the fuel is insufficient); parse_line always
   consumes on success, so parse_string can never return a ParseError. -/
theorem many0_ne_fail {p : Parser α} (hp : Consumes p) :
    ∀ fuel i, i.length < fuel → many0 p fuel i ≠ PRes.fail := by
  intro fuel
  induction fuel with
  | zero => intro i h; omega
  | succ fuel ih =>
    intro i hlen
    simp only [many0]
    cases hpi : p i with
    | fail => simp [hpi]
    | crash => simp [hpi]
    | ok i1 a =>
      simp only [hpi]
      have hlt := hp _ _ _ hpi
      rw [if_neg (by omega)]
      cases hm : many0 p fuel i1 with
      | ok i2 bs => simp [hm]
      | fail => exact absurd hm (ih i1 (by omega))
      | crash => simp [hm]

/-- Claim C2, amended: parse_string never returns a ParseError at all.
many0 swallows the failure of parse_line on the first nonconforming
record and parse_string discards the unconsumed rest, so a nonconforming
input yields the entries of the longest valid prefix (a partial,
best-effort output) instead of an error. -/
theorem c2_never_parse_error : ∀ s : List Char, isErr (parse_string s) = false := by
  intro s
  have h := many0_ne_fail consumes_parse_line (s.length + 1) s (by omega)
  unfold parse_string
  cases hm : many0 parse_line (s.length + 1) s with
  | ok i2 es => simp [isErr, hm]
  | fail => exact absurd hm h
  | crash => simp [isErr, hm]

end Y2

namespace Y2

theorem takeWhile_append_of_all (p : Char → Bool) :
    ∀ ds rest : List Char,
    (∀ c ∈ ds, p c = true) → (∀ c, rest.head? = some c → p c = false) →
    (ds ++ rest).takeWhile p = ds ∧ (ds ++ rest).dropWhile p = rest := by
  intro ds
  induction ds with
  | nil =>
    intro rest h1 h2
    cases rest with
    | nil => simp
    | cons c r2 =>
      have h3 := h2 c rfl
      simp [List.takeWhile_cons, List.dropWhile_cons, h3]
  | cons d ds2 ih =>
    intro rest h1 h2
    have hd : p d = true := h1 d (by simp)
    have h4 := ih rest (fun c hc => h1 c (by simp [hc])) h2
    simp [List.takeWhile_cons, List.dropWhile_cons, hd, h4.1, h4.2]

theorem digit1_append (ds rest : List Char) (hne : ds ≠ [])
    (h1 : ∀ c ∈ ds, c.isDigit = true)
    (h2 : ∀ c, rest.head? = some c → c.isDigit = false) :
    digit1 (ds ++ rest) = PRes.ok rest ds := by
  have h := takeWhile_append_of_all Char.isDigit ds rest h1 h2
  simp only [List.cons_append] at h
  cases ds with
  | nil => exact absurd rfl hne
  | cons d ds2 =>
    simp only [List.cons_append] at h
    simp [digit1, h.1, h.2]

theorem number_append (ds rest : List Char) (hne : ds ≠ [])
    (h1 : ∀ c ∈ ds, c.isDigit = true)
    (h2 : ∀ c, rest.head? = some c → c.isDigit = false) :
    number (ds ++ rest) =
      (if digitsToNat ds ≤ 4294967295 then PRes.ok rest (digitsToNat ds)
       else PRes.fail) := by
  simp only [number, mapResP, digit1_append ds rest hne h1 h2, u32FromStr]
  by_cases hle : digitsToNat ds ≤ 4294967295
  · simp [if_pos hle]
  · simp [if_neg hle]

/-- Claim C6: for every Level variant, decoding its ordinal through
TryFrom yields the variant back and Display re-encodes it as the very
same ordinal; and the decoding used by the parser
(try_from(v).unwrap_or(Unknown)) maps every integer outside 0-5 to
Unknown instead of failing. -/
theorem c6_level_roundtrip :
    (∀ l : Level, levelTryFrom (levelOrd l) = some l ∧
      levelDisplay l = Nat.repr (levelOrd l)) ∧
    (∀ n : Nat, 5 < n → levelDecode n = Level.Unknown) := by
  constructor
  · intro l
    cases l <;> exact ⟨rfl, rfl⟩
  · intro n hn
    rcases n with _ | _ | _ | _ | _ | _ | m
    · omega
    · omega
    · omega
    · omega
    · omega
    · omega
    · rfl

/-- Witness for C6 at Level.Warn and at the out-of-table ordinal 9. -/
theorem c6_witness :
    levelTryFrom (levelOrd Level.Warn) = some Level.Warn ∧
    levelDisplay Level.Warn = Nat.repr (levelOrd Level.Warn) ∧
    levelDecode 9 = Level.Unknown :=
  ⟨(c6_level_roundtrip.1 Level.Warn).1, (c6_level_roundtrip.1 Level.Warn).2,
    c6_level_roundtrip.2 9 (by decide)⟩

/-- Claim C5 counterexample: "4294967296" is a syntactically valid
multi-digit numeral, yet the severity token <4294967296> is a hard parse
failure (u32::from_str overflows inside map_res) - contradicting the
claim that any syntactically valid numeral outside the 0-5 table decodes
to Unknown and is not a parse failure. -/
theorem c5_counterexample :
    "4294967296".data.all Char.isDigit = true ∧
    level "<4294967296>".data = PRes.fail := by
  exact ⟨by decide, by decide⟩

/-- Claim C5, amended: non-numeric content between the angle brackets is
a hard parse failure; a numeral whose value fits in u32 decodes through
the 0-5 table with fallback Unknown (so out-of-table values like 9 give
Unknown without failing); a numeral exceeding u32::MAX = 4294967295 is a
hard parse failure. -/
theorem c5_severity_semantics :
    level "<x>".data = PRes.fail ∧
    (∀ ds rest, ds ≠ [] → (∀ c ∈ ds, c.isDigit = true) →
      digitsToNat ds ≤ 4294967295 →
      level ('<' :: (ds ++ '>' :: rest)) =
        PRes.ok rest (levelDecode (digitsToNat ds))) ∧
    (∀ ds rest, ds ≠ [] → (∀ c ∈ ds, c.isDigit = true) →
      4294967295 < digitsToNat ds →
      level ('<' :: (ds ++ '>' :: rest)) = PRes.fail) := by
  refine ⟨by decide, ?_, ?_⟩
  · intro ds rest hne h1 hle
    have hnum := number_append ds ('>' :: rest) hne h1
      (by intro c hc; simp at hc; subst hc; decide)
    rw [if_pos hle] at hnum
    simp [level, pmap, delimitedP, pbind, pureP, charP, hnum]
  · intro ds rest hne h1 hgt
    have hnum := number_append ds ('>' :: rest) hne h1
      (by intro c hc; simp at hc; subst hc; decide)
    rw [if_neg (by omega)] at hnum
    simp [level, pmap, delimitedP, pbind, pureP, charP, hnum]

/-- Witness for C5 at the numeral 9: <9> decodes to Unknown. -/
theorem c5_witness :
    level ('<' :: ("9".data ++ '>' :: ([] : List Char))) =
      PRes.ok [] (levelDecode (digitsToNat "9".data)) :=
  c5_severity_semantics.2.1 "9".data [] (by decide) (by decide) (by decide)

/-- Claim C8 counterexample: on a record with two consecutive spaces
after the component, parse_filename matches the empty run and the parse
succeeds, returning an Entry whose Location.file is the empty string -
while the claim says such an Entry is never returned. -/
theorem c8_counterexample :
    parse_string emptyFileInput.data = ParseOutcome.ok [emptyFileEntry] ∧
    emptyFileEntry.location.file = "" := by
  exact ⟨by decide, rfl⟩

/-- Claim C8, amended: the location's file field is the possibly-empty
maximal run of filename characters (take_while imposes no minimum
length), so a successful parse can return an Entry with an empty
Location.file. -/
theorem c8_file_take_while :
    (∀ s : List Char, parse_filename s =
      PRes.ok
        (s.dropWhile (fun c =>
          c.isAlphanum || decide (c = '.') || decide (c = '/') || decide (c = '_')))
        (String.mk (s.takeWhile (fun c =>
          c.isAlphanum || decide (c = '.') || decide (c = '/') || decide (c = '_'))))) ∧
    parse_string emptyFileInput.data = ParseOutcome.ok [emptyFileEntry] := by
  exact ⟨fun s => rfl, by decide⟩

/-- Claim C9 counterexample: the record "2022-8-25 4:8:4 ..." has
non-zero-padded date and time components and still parses as a valid
record, contradicting the claim that only the fixed-width zero-padded
form is accepted. -/
theorem c9_counterexample :
    parse_string unpaddedInput.data = ParseOutcome.ok [unpaddedEntry] := by
  decide

/-- Claim C9, amended: each datetime component is parsed by digit1 +
u32::from_str, which accepts a digit run of any length whose value fits
in u32; no fixed width or zero padding is enforced, so non-padded
components parse as a valid record. -/
theorem c9_no_padding_required :
    (∀ ds rest, ds ≠ [] → (∀ c ∈ ds, c.isDigit = true) →
      (∀ c, rest.head? = some c → c.isDigit = false) →
      digitsToNat ds ≤ 4294967295 →
      number (ds ++ rest) = PRes.ok rest (digitsToNat ds)) ∧
    parse_string unpaddedInput.data = ParseOutcome.ok [unpaddedEntry] := by
  constructor
  · intro ds rest hne h1 h2 hle
    rw [number_append ds rest hne h1 h2, if_pos hle]
  · decide

/-- Witness for C9: the single digit "8" followed by "-25" parses as the
number 8 with "-25" left over. -/
theorem c9_witness :
    number ("8".data ++ "-25".data) = PRes.ok "-25".data (digitsToNat "8".data) :=
  c9_no_padding_required.1 "8".data "-25".data (by decide) (by decide)
    (by intro c hc; simp at hc; subst hc; decide) (by decide)

end Y2

namespace Y2

theorem cmpNat_lt_iff (a b : Nat) : cmpNat a b = Ordering.lt ↔ a < b := by
  unfold cmpNat
  rcases Nat.lt_trichotomy a b with h | h | h
  · rw [if_pos h]; simp [h]
  · subst h
    rw [if_neg (Nat.lt_irrefl a), if_neg (Nat.lt_irrefl a)]
    simp
  · rw [if_neg (by omega), if_pos h]
    simp
    omega

theorem cmpNat_gt_iff (a b : Nat) : cmpNat a b = Ordering.gt ↔ b < a := by
  unfold cmpNat
  rcases Nat.lt_trichotomy a b with h | h | h
  · rw [if_pos h]; simp; omega
  · subst h
    rw [if_neg (Nat.lt_irrefl a), if_neg (Nat.lt_irrefl a)]
    simp
  · rw [if_neg (by omega), if_pos h]
    simp [h]

theorem cmpNat_eq_of_eq (a : Nat) : cmpNat a a = Ordering.eq := by
  unfold cmpNat
  rw [if_neg (Nat.lt_irrefl a), if_neg (Nat.lt_irrefl a)]

theorem cmpL_gt_iff : ∀ as bs : List Nat, cmpL as bs = Ordering.gt ↔ leLex as bs = false := by
  intro as
  induction as with
  | nil => intro bs; cases bs <;> simp [cmpL, leLex]
  | cons a as2 ih =>
    intro bs
    cases bs with
    | nil => simp [cmpL, leLex]
    | cons b bs2 =>
      simp only [cmpL, leLex]
      rcases Nat.lt_trichotomy a b with h | h | h
      · have hc : cmpNat a b = Ordering.lt := (cmpNat_lt_iff a b).mpr h
        simp [hc, Ordering.then, h]
      · subst h
        simp [cmpNat_eq_of_eq a, Ordering.then, ih bs2]
      · have hc : cmpNat a b = Ordering.gt := (cmpNat_gt_iff a b).mpr h
        have hnl : ¬ a < b := by omega
        have hne : a ≠ b := by omega
        simp [hc, Ordering.then, hnl, hne]

theorem cmpL_lt_iff : ∀ as bs : List Nat, cmpL as bs = Ordering.lt ↔ leLex bs as = false := by
  intro as
  induction as with
  | nil => intro bs; cases bs <;> simp [cmpL, leLex]
  | cons a as2 ih =>
    intro bs
    cases bs with
    | nil => simp [cmpL, leLex]
    | cons b bs2 =>
      simp only [cmpL, leLex]
      rcases Nat.lt_trichotomy a b with h | h | h
      · have hc : cmpNat a b = Ordering.lt := (cmpNat_lt_iff a b).mpr h
        have hnl : ¬ b < a := by omega
        have hne : b ≠ a := by omega
        simp [hc, Ordering.then, hnl, hne]
      · subst h
        simp [cmpNat_eq_of_eq a, Ordering.then, ih bs2]
      · have hc : cmpNat a b = Ordering.gt := (cmpNat_gt_iff a b).mpr h
        simp [hc, Ordering.then, h]

theorem leLex_refl : ∀ as : List Nat, leLex as as = true := by
  intro as
  induction as with
  | nil => rfl
  | cons a as2 ih => simp [leLex, ih]

theorem ndt_gt_eq (a b : NaiveDateTime) :
    decide (ndtCmp a b = Ordering.gt) = !(ndtLe a b) := by
  by_cases h : ndtCmp a b = Ordering.gt
  · have h2 : ndtLe a b = false := (cmpL_gt_iff (ndtList a) (ndtList b)).mp h
    simp [h, h2]
  · have h2 : ndtLe a b = true := by
      cases hle : ndtLe a b
      · exact absurd ((cmpL_gt_iff (ndtList a) (ndtList b)).mpr hle) h
      · rfl
    simp [h, h2]

theorem ndt_lt_eq (a b : NaiveDateTime) :
    decide (ndtCmp a b = Ordering.lt) = !(ndtLe b a) := by
  by_cases h : ndtCmp a b = Ordering.lt
  · have h2 : ndtLe b a = false := (cmpL_lt_iff (ndtList a) (ndtList b)).mp h
    simp [h, h2]
  · have h2 : ndtLe b a = true := by
      cases hle : ndtLe b a
      · exact absurd ((cmpL_lt_iff (ndtList a) (ndtList b)).mpr hle) h
      · rfl
    simp [h, h2]

theorem filter_step {δ : Type} (o : Option δ) (p : δ → Bool) (R : Bool) :
    (if (o.any fun x => !(p x)) = true then false else R) = (o.all p && R) := by
  cases o with
  | none => simp [Option.any, Option.all]
  | some a => cases hp : p a <;> simp [Option.any, Option.all, hp]

/- The early-return chain of Query::to_log's closure equals the
   conjunctive specification predicate. -/
theorem queryMatches_eq_spec (q : Query) (e : Entry) :
    queryMatches q e = specMatches q e := by
  unfold queryMatches specMatches
  simp only [decide_not, ndt_gt_eq, ndt_lt_eq]
  rw [filter_step, filter_step, filter_step, filter_step, filter_step, filter_step]
  simp [Bool.and_assoc]

/-- Claim C3: Query::to_log keeps exactly the entries on which every set
predicate matches - level, pid, component and hostname by equality,
from_datetime as an inclusive lower bound and to_datetime as an
inclusive upper bound (ndtLe is reflexive, so an entry whose datetime
equals a bound is included), and an unset predicate restricts nothing
(with all predicates unset every entry survives, since specMatches is
then the constant true). -/
theorem c3_query_semantics :
    (∀ q : Query, (Query.to_log q).entries = q.log.entries.filter (specMatches q)) ∧
    (∀ dt : NaiveDateTime, ndtLe dt dt = true) := by
  constructor
  · intro q
    exact List.filter_congr (fun e _ => queryMatches_eq_spec q e)
  · exact fun dt => leLex_refl _

/-- Claim C4: filtering never reorders; the entries of the filtered Log
form a sublist (an order-preserving subsequence) of the source Log's
entries. -/
theorem c4_filter_preserves_order :
    ∀ q : Query, (Query.to_log q).entries.Sublist q.log.entries :=
  fun _ => List.filter_sublist _

end Y2

namespace Y2

/- Structure of splitLines / joinLines / startsRecord, used to relate
   parse_message to the line-based message specification. -/

theorem splitLines_cons_shape : ∀ i : List Char, ∃ l ls, splitLines i = l :: ls := by
  intro i
  cases i with
  | nil => exact ⟨[], [], rfl⟩
  | cons c rest =>
    simp only [splitLines]
    by_cases hc : c = '\n'
    · rw [if_pos hc]
      exact ⟨[], splitLines rest, rfl⟩
    · rw [if_neg hc]
      cases h : splitLines rest with
      | nil => exact ⟨[c], [], rfl⟩
      | cons l ls => exact ⟨c :: l, ls, rfl⟩

theorem splitLines_newline (t : List Char) : splitLines ('\n' :: t) = [] :: splitLines t := by
  simp [splitLines]

theorem splitLines_single (x : List Char) (h : ∀ c ∈ x, ¬ c = '\n') :
    splitLines x = [x] := by
  induction x with
  | nil => rfl
  | cons c rest ih =>
    have hc : ¬ c = '\n' := h c (by simp)
    have h2 := ih (fun c2 hc2 => h c2 (by simp [hc2]))
    simp [splitLines, if_neg hc, h2]

theorem splitLines_prepend (content : List Char) :
    ∀ r : List Char, (∀ c ∈ content, ¬ c = '\n') →
    splitLines (content ++ r) =
      (content ++ (splitLines r).headD []) :: (splitLines r).tail := by
  induction content with
  | nil =>
    intro r h
    obtain ⟨l, ls, hs⟩ := splitLines_cons_shape r
    simp [hs]
  | cons c cs ih =>
    intro r h
    have hc : ¬ c = '\n' := h c (by simp)
    have h2 := ih r (fun x hx => h x (by simp [hx]))
    simp only [List.cons_append, splitLines, if_neg hc, List.append_eq, h2]

theorem joinLines_splitLines : ∀ x : List Char, joinLines (splitLines x) = x := by
  intro x
  induction x with
  | nil => rfl
  | cons c rest ih =>
    by_cases hc : c = '\n'
    · subst hc
      obtain ⟨l, ls, h⟩ := splitLines_cons_shape rest
      rw [splitLines_newline, h]
      have h2 : joinLines ([] :: l :: ls) = '\n' :: joinLines (l :: ls) := rfl
      rw [h2, ← h, ih]
    · obtain ⟨l, ls, h⟩ := splitLines_cons_shape rest
      simp only [splitLines, if_neg hc, h]
      cases ls with
      | nil =>
        have h4 := ih
        rw [h] at h4
        have h3 : joinLines [l] = l := rfl
        rw [h3] at h4
        have h2 : joinLines [c :: l] = c :: l := rfl
        rw [h2, h4]
      | cons l2 ls2 =>
        have h2 : joinLines ((c :: l) :: l2 :: ls2) =
            (c :: l) ++ '\n' :: joinLines (l2 :: ls2) := rfl
        have h3 : joinLines (l :: l2 :: ls2) = l ++ '\n' :: joinLines (l2 :: ls2) := rfl
        have h4 := ih
        rw [h, h3] at h4
        rw [h2]
        simp only [List.cons_append]
        rw [h4]

theorem hyphenAfterDigits_append (r2 : List Char) :
    ∀ cs : List Char, hyphenAfterDigits (cs ++ '\n' :: r2) = hyphenAfterDigits cs := by
  intro cs
  induction cs with
  | nil => rfl
  | cons c cs2 ih =>
    simp only [List.cons_append, hyphenAfterDigits, List.append_eq]
    by_cases hc : c.isDigit
    · rw [if_pos hc, if_pos hc, ih]
    · rw [if_neg hc, if_neg hc]

theorem startsRecord_append (x r2 : List Char) :
    startsRecord (x ++ '\n' :: r2) = startsRecord x := by
  cases x with
  | nil => rfl
  | cons c rest =>
    simp only [List.cons_append, startsRecord, hyphenAfterDigits_append r2 rest]

theorem startsRecord_headLine (t : List Char) :
    startsRecord ((splitLines t).headD []) = startsRecord t := by
  obtain ⟨l, ls, h⟩ := splitLines_cons_shape t
  rw [h]
  simp only [List.headD_cons]
  have ht : t = joinLines (l :: ls) := by rw [← h, joinLines_splitLines]
  cases ls with
  | nil =>
    rw [ht]
    rfl
  | cons l2 ls2 =>
    rw [ht]
    have h2 : joinLines (l :: l2 :: ls2) = l ++ '\n' :: joinLines (l2 :: ls2) := rfl
    rw [h2, startsRecord_append]

theorem hyphenAfterDigits_iff_dropWhile (r : List Char) :
    hyphenAfterDigits r = true ↔ (r.dropWhile Char.isDigit).head? = some '-' := by
  induction r with
  | nil => simp [hyphenAfterDigits]
  | cons c r2 ih =>
    by_cases hc : c.isDigit
    · simp only [hyphenAfterDigits, if_pos hc, List.dropWhile_cons, hc, if_true]
      exact ih
    · simp only [hyphenAfterDigits, if_neg hc, List.dropWhile_cons, hc, if_false]
      simp

theorem dAH_ok_of_startsRecord (x : List Char) (h : startsRecord x = true) :
    ∃ i1 v, digits_and_hyphen x = PRes.ok i1 v := by
  cases x with
  | nil => simp [startsRecord] at h
  | cons c rest =>
    simp only [startsRecord, Bool.and_eq_true] at h
    obtain ⟨hc, hh⟩ := h
    have hhead := (hyphenAfterDigits_iff_dropWhile rest).mp hh
    cases hd : rest.dropWhile Char.isDigit with
    | nil => rw [hd] at hhead; cases hhead
    | cons c2 tail =>
      rw [hd] at hhead
      simp only [List.head?_cons, Option.some.injEq] at hhead
      subst hhead
      have hdig : digit1 (c :: rest) =
          PRes.ok ('-' :: tail) (c :: rest.takeWhile Char.isDigit) := by
        simp [digit1, List.takeWhile_cons, List.dropWhile_cons, hc, hd]
      refine ⟨tail, (c :: rest).take ((c :: rest).length - tail.length), ?_⟩
      simp [digits_and_hyphen, recognizeP, pairP, pbind, pureP, hdig, charP]

theorem dAH_fail_of_not_startsRecord (x : List Char) (h : startsRecord x = false) :
    digits_and_hyphen x = PRes.fail := by
  cases x with
  | nil => rfl
  | cons c rest =>
    by_cases hc : c.isDigit
    · have hh : hyphenAfterDigits rest = false := by
        cases hh2 : hyphenAfterDigits rest
        · rfl
        · simp [startsRecord, hc, hh2] at h
      have hhead : ¬ (rest.dropWhile Char.isDigit).head? = some '-' := by
        intro hcon
        have := (hyphenAfterDigits_iff_dropWhile rest).mpr hcon
        rw [this] at hh
        cases hh
      have hdig : digit1 (c :: rest) =
          PRes.ok (rest.dropWhile Char.isDigit) (c :: rest.takeWhile Char.isDigit) := by
        simp [digit1, List.takeWhile_cons, List.dropWhile_cons, hc]
      have hchar : charP '-' (rest.dropWhile Char.isDigit) = PRes.fail := by
        cases hd : rest.dropWhile Char.isDigit with
        | nil => rfl
        | cons c2 tail =>
          rw [hd] at hhead
          simp only [List.head?_cons] at hhead
          have hne : ¬ c2 = '-' := by
            intro hx
            exact hhead (by rw [hx])
          simp [charP, hne]
      simp [digits_and_hyphen, recognizeP, pairP, pbind, hdig, hchar]
    · have hdig : digit1 (c :: rest) = PRes.fail := by
        simp [digit1, List.takeWhile_cons, hc]
      simp [digits_and_hyphen, recognizeP, pairP, pbind, hdig]

end Y2

namespace Y2

theorem notCRLF_ne_newline {c : Char} (h : notCRLF c = true) : ¬ c = '\n' := by
  simp [notCRLF] at h
  exact h.2

theorem takeWhile_no_newline (u : List Char) :
    ∀ c ∈ u.takeWhile notCRLF, ¬ c = '\n' :=
  fun _ hc => notCRLF_ne_newline (List.mem_takeWhile_imp hc)

theorem takeWhile_eq_of_dropWhile_nil (p : Char → Bool) (l : List Char)
    (h : l.dropWhile p = []) : l.takeWhile p = l := by
  have h2 := List.takeWhile_append_dropWhile p l
  rw [h, List.append_nil] at h2
  exact h2

theorem take_append_exact (a b : List Char) :
    (a ++ b).take ((a ++ b).length - b.length) = a := by
  have h : (a ++ b).length - b.length = a.length := by
    simp [List.length_append]
  rw [h]
  exact List.take_left a b

theorem dropWhile_head_false (p : Char → Bool) :
    ∀ (l : List Char) (c : Char) (t2 : List Char),
    l.dropWhile p = c :: t2 → p c = false := by
  intro l
  induction l with
  | nil => intro c t2 h; cases h
  | cons a l2 ih =>
    intro c t2 h
    by_cases ha : p a
    · rw [List.dropWhile_cons, if_pos ha] at h
      exact ih c t2 h
    · rw [List.dropWhile_cons, if_neg ha] at h
      injection h with h1 h2
      subst h1
      simpa using ha

theorem msgSpec_nil : msgSpec [] = ([], []) := rfl

theorem msgSpec_newline_term (t : List Char) (h : startsRecord t = true) :
    msgSpec ('\n' :: t) = ([], t) := by
  obtain ⟨l, ls, hs⟩ := splitLines_cons_shape t
  have hl : startsRecord l = true := by
    have h2 := startsRecord_headLine t
    rw [hs] at h2
    simp only [List.headD_cons] at h2
    rw [h2]
    exact h
  have hjoin : joinLines (l :: ls) = t := by rw [← hs, joinLines_splitLines]
  simp only [msgSpec, splitLines_newline, hs, List.headD_cons, List.tail_cons,
    List.takeWhile_cons, List.dropWhile_cons, hl, Bool.not_true, if_false]
  rw [Prod.mk.injEq]
  exact ⟨rfl, hjoin⟩

theorem msgSpec_newline_cont (t : List Char) (h : startsRecord t = false) :
    msgSpec ('\n' :: t) = ('\n' :: (msgSpec t).1, (msgSpec t).2) := by
  obtain ⟨l, ls, hs⟩ := splitLines_cons_shape t
  have hl : startsRecord l = false := by
    have h2 := startsRecord_headLine t
    rw [hs] at h2
    simp only [List.headD_cons] at h2
    rw [h2]
    exact h
  simp only [msgSpec, splitLines_newline, hs, List.headD_cons, List.tail_cons,
    List.takeWhile_cons, List.dropWhile_cons, hl, Bool.not_false, if_true]
  rfl

theorem msgSpec_content (content : List Char) (r : List Char)
    (hnl : ∀ c ∈ content, ¬ c = '\n') :
    msgSpec (content ++ r) = (content ++ (msgSpec r).1, (msgSpec r).2) := by
  obtain ⟨l, ls, hs⟩ := splitLines_cons_shape r
  have hsp := splitLines_prepend content r hnl
  rw [hs] at hsp
  simp only [List.headD_cons, List.tail_cons] at hsp
  simp only [msgSpec, hsp, hs, List.headD_cons, List.tail_cons]
  have hx : ∀ tw : List (List Char), joinLines ((content ++ l) :: tw) =
      content ++ joinLines (l :: tw) := by
    intro tw
    cases tw with
    | nil => rfl
    | cons x xs =>
      have h1 : joinLines ((content ++ l) :: x :: xs) =
          (content ++ l) ++ '\n' :: joinLines (x :: xs) := rfl
      have h2 : joinLines (l :: x :: xs) = l ++ '\n' :: joinLines (x :: xs) := rfl
      rw [h1, h2, List.append_assoc]
  rw [hx]

theorem msgSpec_no_newline (x : List Char) (h : ∀ c ∈ x, ¬ c = '\n') :
    msgSpec x = (x, []) := by
  simp only [msgSpec, splitLines_single x h, List.headD_cons, List.tail_cons,
    List.takeWhile_nil, List.dropWhile_nil]
  rfl

/- Evaluation of the parsers inside parse_message. -/

theorem notLineEnding_dropNil (u : List Char) (h : u.dropWhile notCRLF = []) :
    notLineEnding u = PRes.ok [] u := by
  simp [notLineEnding, h, takeWhile_eq_of_dropWhile_nil notCRLF u h]

theorem notLineEnding_dropNewline (u t2 : List Char)
    (h : u.dropWhile notCRLF = '\n' :: t2) :
    notLineEnding u = PRes.ok ('\n' :: t2) (u.takeWhile notCRLF) := by
  simp only [notLineEnding, h]
  rw [if_neg (by decide : ¬ ('\n' : Char) = '\r')]

theorem notLineEnding_cr (u t2 : List Char)
    (h : u.dropWhile notCRLF = '\r' :: t2) :
    notLineEnding u =
      (if t2.head? = some '\n' then PRes.ok ('\r' :: t2) (u.takeWhile notCRLF)
       else PRes.fail) := by
  simp only [notLineEnding, h]
  rw [if_pos trivial]

theorem msgEnd_nil : msgEnd [] = PRes.ok [] [] := rfl

theorem msgEnd_newline_term (t : List Char) (h : startsRecord t = true) :
    msgEnd ('\n' :: t) = PRes.ok t [] := by
  obtain ⟨i1, v, hd⟩ := dAH_ok_of_startsRecord t h
  simp [msgEnd, altP, pmap, pairP, pbind, pureP, charP, peekP, hd]

theorem msgEnd_newline_cont (t : List Char) (h : startsRecord t = false) :
    msgEnd ('\n' :: t) = PRes.fail := by
  have hd := dAH_fail_of_not_startsRecord t h
  simp [msgEnd, altP, pmap, pairP, pbind, pureP, charP, peekP, eofP, hd]

theorem msgEnd_no_newline (c : Char) (t : List Char) (h : ¬ c = '\n') :
    msgEnd (c :: t) = PRes.fail := by
  simp [msgEnd, altP, pmap, pairP, pbind, charP, eofP, h]

theorem msgChunk_newline (t i1 content : List Char)
    (hnle : notLineEnding t = PRes.ok i1 content)
    (hsplit : content ++ i1 = t) :
    msgChunk ('\n' :: t) = PRes.ok i1 ('\n' :: content) := by
  have hopt : optP (charP '\n') ('\n' :: t) = PRes.ok t (some '\n') := by
    simp [optP, charP]
  simp only [msgChunk, recognizeP, pairP, pbind, pureP, hopt, hnle]
  have h2 : ('\n' :: t) = ('\n' :: content) ++ i1 := by
    simp [List.cons_append, hsplit]
  rw [h2, take_append_exact ('\n' :: content) i1]

theorem msgChunk_other (c : Char) (t i1 content : List Char) (hc : ¬ c = '\n')
    (hnle : notLineEnding (c :: t) = PRes.ok i1 content)
    (hsplit : content ++ i1 = c :: t) :
    msgChunk (c :: t) = PRes.ok i1 content := by
  have hopt : optP (charP '\n') (c :: t) = PRes.ok (c :: t) none := by
    simp [optP, charP, hc]
  simp only [msgChunk, recognizeP, pairP, pbind, pureP, hopt, hnle]
  rw [← hsplit, take_append_exact content i1]

/- A successful continuing step of the message loop: the terminator
   failed, the chunk parser succeeded and consumed, so the loop recurses
   on the chunk's leftover. -/
theorem manyTill_step_ok (fuel : Nat) (j i1 chunk i2 : List Char)
    (chunks : List (List Char)) (b : List Char)
    (hend : msgEnd j = PRes.fail)
    (hchunk : msgChunk j = PRes.ok i1 chunk)
    (hlt : i1.length < j.length)
    (h : manyTillP msgChunk msgEnd (fuel + 1) j = PRes.ok i2 (chunks, b)) :
    ∃ chunks2, chunks = chunk :: chunks2 ∧
      manyTillP msgChunk msgEnd fuel i1 = PRes.ok i2 (chunks2, b) := by
  simp only [manyTillP, hend, hchunk] at h
  rw [if_neg (by omega)] at h
  cases hm : manyTillP msgChunk msgEnd fuel i1 with
  | ok i3 r =>
    obtain ⟨chunks2, b2⟩ := r
    simp only [hm, PRes.ok.injEq, Prod.mk.injEq] at h
    obtain ⟨h1, h2, h3⟩ := h
    refine ⟨chunks2, h2.symm, ?_⟩
    rw [h1, h3]
  | fail => simp [hm] at h
  | crash => simp [hm] at h

/- Any loop position that begins with a carriage return makes the
   message loop fail: either not_line_ending rejects the lone CR, or the
   CRLF chunk would consume nothing and trip the infinite-loop guard. -/
theorem manyTill_cr_fail (fuel : Nat) (u : List Char) (hu : u.head? = some '\r') :
    manyTillP msgChunk msgEnd fuel u = PRes.fail := by
  cases u with
  | nil => simp at hu
  | cons c t =>
    simp only [List.head?_cons, Option.some.injEq] at hu
    subst hu
    cases fuel with
    | zero => rfl
    | succ fuel =>
      have hend : msgEnd ('\r' :: t) = PRes.fail :=
        msgEnd_no_newline '\r' t (by decide)
    
      have hopt : optP (charP '\n') ('\r' :: t) = PRes.ok ('\r' :: t) none := by
        simp [optP, charP]
      have hn : notCRLF '\r' = false := rfl
      have hdrop : ('\r' :: t).dropWhile notCRLF = '\r' :: t := by
        simp [List.dropWhile_cons, hn]
      by_cases hhn : t.head? = some '\n'
      · have hnle : notLineEnding ('\r' :: t) =
            PRes.ok ('\r' :: t) (('\r' :: t).takeWhile notCRLF) := by
          rw [notLineEnding_cr ('\r' :: t) t hdrop, if_pos hhn]
        have htw : ('\r' :: t).takeWhile notCRLF = [] := by
          simp [List.takeWhile_cons, hn]
        rw [htw] at hnle
        have hchunk : msgChunk ('\r' :: t) = PRes.ok ('\r' :: t) [] := by
          simp only [msgChunk, recognizeP, pairP, pbind, pureP, hopt, hnle]
          simp
        simp [manyTillP, hend, hchunk]
      · have hnle : notLineEnding ('\r' :: t) = PRes.fail := by
          rw [notLineEnding_cr ('\r' :: t) t hdrop, if_neg hhn]
        have hchunk : msgChunk ('\r' :: t) = PRes.fail := by
          simp [msgChunk, recognizeP, pairP, pbind, hopt, hnle]
        simp [manyTillP, hend, hchunk]

end Y2

namespace Y2

/- The message loop computes exactly the line-based message
   specification: whatever many_till(msgChunk, msgEnd) accepts is the
   remainder of the first physical line plus every following physical
   line that does not start a new record, and it leaves exactly the
   start of the next record (or nothing) unconsumed. -/
theorem manyTill_msg_spec :
    ∀ fuel j i2 chunks b,
      manyTillP msgChunk msgEnd fuel j = PRes.ok i2 (chunks, b) →
      chunks.flatten = (msgSpec j).1 ∧ i2 = (msgSpec j).2 := by
  intro fuel
  induction fuel with
  | zero =>
    intro j i2 chunks b h
    simp [manyTillP] at h
  | succ fuel ih =>
    intro j i2 chunks b h
    cases j with
    | nil =>
      simp only [manyTillP, msgEnd_nil, PRes.ok.injEq, Prod.mk.injEq] at h
      obtain ⟨h1, h2, h3⟩ := h
      subst h1
      subst h2
      exact ⟨rfl, rfl⟩
    | cons c t =>
      by_cases hc : c = '\n'
      · subst hc
        cases hsr : startsRecord t with
        | true =>
          simp only [manyTillP, msgEnd_newline_term t hsr, PRes.ok.injEq,
            Prod.mk.injEq] at h
          obtain ⟨h1, h2, h3⟩ := h
          subst h1
          subst h2
          rw [msgSpec_newline_term t hsr]
          exact ⟨rfl, rfl⟩
        | false =>
          have hend := msgEnd_newline_cont t hsr
          cases hdrop : t.dropWhile notCRLF with
          | nil =>
            have htw : t.takeWhile notCRLF = t :=
              takeWhile_eq_of_dropWhile_nil notCRLF t hdrop
            have hnle := notLineEnding_dropNil t hdrop
            have hchunk := msgChunk_newline t [] t hnle (by simp)
            have hall : ∀ c2 ∈ t, ¬ c2 = '\n' := by
              intro c2 hc2
              rw [← htw] at hc2
              exact notCRLF_ne_newline (List.mem_takeWhile_imp hc2)
            obtain ⟨chunks2, hchunks, hrec⟩ :=
              manyTill_step_ok fuel ('\n' :: t) [] ('\n' :: t) i2 chunks b
                hend hchunk (by simp) h
            obtain ⟨hih1, hih2⟩ := ih [] i2 chunks2 b hrec
            subst hchunks
            rw [msgSpec_newline_cont t hsr, msgSpec_no_newline t hall]
            constructor
            · simp [List.flatten_cons, hih1, msgSpec_nil]
            · simpa [msgSpec_nil] using hih2
          | cons c2 t2 =>
            have hfalse := dropWhile_head_false notCRLF t c2 t2 hdrop
            by_cases hc2n : c2 = '\n'
            · subst hc2n
              have hnle := notLineEnding_dropNewline t t2 hdrop
              have hsplit : t.takeWhile notCRLF ++ ('\n' :: t2) = t := by
                rw [← hdrop]
                exact List.takeWhile_append_dropWhile notCRLF t
              have hchunk := msgChunk_newline t ('\n' :: t2) (t.takeWhile notCRLF)
                hnle hsplit
              have hlen := congrArg List.length hsplit
              simp only [List.length_append, List.length_cons] at hlen
              obtain ⟨chunks2, hchunks, hrec⟩ :=
                manyTill_step_ok fuel ('\n' :: t) ('\n' :: t2)
                  ('\n' :: t.takeWhile notCRLF) i2 chunks b hend hchunk
                  (by simp only [List.length_cons]; omega) h
              obtain ⟨hih1, hih2⟩ := ih ('\n' :: t2) i2 chunks2 b hrec
              subst hchunks
              have hms := msgSpec_content (t.takeWhile notCRLF) ('\n' :: t2)
                (takeWhile_no_newline t)
              rw [hsplit] at hms
              rw [msgSpec_newline_cont t hsr, hms]
              constructor
              · simp only [List.flatten_cons]
                rw [hih1]
                simp
              · exact hih2
            · have hcr : c2 = '\r' := by
                simp [notCRLF] at hfalse
                by_cases h2 : c2 = '\r'
                · exact h2
                · exact absurd (hfalse h2) hc2n
              subst hcr
              by_cases hhn : t2.head? = some '\n'
              · have hnle : notLineEnding t =
                    PRes.ok ('\r' :: t2) (t.takeWhile notCRLF) := by
                  rw [notLineEnding_cr t t2 hdrop, if_pos hhn]
                have hsplit : t.takeWhile notCRLF ++ ('\r' :: t2) = t := by
                  rw [← hdrop]
                  exact List.takeWhile_append_dropWhile notCRLF t
                have hchunk := msgChunk_newline t ('\r' :: t2)
                  (t.takeWhile notCRLF) hnle hsplit
                have hlen := congrArg List.length hsplit
                simp only [List.length_append, List.length_cons] at hlen
                obtain ⟨chunks2, hchunks, hrec⟩ :=
                  manyTill_step_ok fuel ('\n' :: t) ('\r' :: t2)
                    ('\n' :: t.takeWhile notCRLF) i2 chunks b hend hchunk
                    (by simp only [List.length_cons]; omega) h
                rw [manyTill_cr_fail fuel ('\r' :: t2) rfl] at hrec
                cases hrec
              · have hnle : notLineEnding t = PRes.fail := by
                  rw [notLineEnding_cr t t2 hdrop, if_neg hhn]
                have hopt : optP (charP '\n') ('\n' :: t) = PRes.ok t (some '\n') := by
                  simp [optP, charP]
                have hchunk : msgChunk ('\n' :: t) = PRes.fail := by
                  simp [msgChunk, recognizeP, pairP, pbind, hopt, hnle]
                simp [manyTillP, hend, hchunk] at h
      · have hend := msgEnd_no_newline c t hc
        by_cases hcr : c = '\r'
        · subst hcr
          rw [manyTill_cr_fail (fuel + 1) ('\r' :: t) rfl] at h
          cases h
        · have hnc : notCRLF c = true := by
            simp [notCRLF, hc, hcr]
          cases hdrop : (c :: t).dropWhile notCRLF with
          | nil =>
            have htw : (c :: t).takeWhile notCRLF = c :: t :=
              takeWhile_eq_of_dropWhile_nil notCRLF (c :: t) hdrop
            have hnle := notLineEnding_dropNil (c :: t) hdrop
            have hchunk := msgChunk_other c t [] (c :: t) hc hnle (by simp)
            have hall : ∀ c2 ∈ c :: t, ¬ c2 = '\n' := by
              intro c2 hc2
              rw [← htw] at hc2
              exact notCRLF_ne_newline (List.mem_takeWhile_imp hc2)
            obtain ⟨chunks2, hchunks, hrec⟩ :=
              manyTill_step_ok fuel (c :: t) [] (c :: t) i2 chunks b
                hend hchunk (by simp) h
            obtain ⟨hih1, hih2⟩ := ih [] i2 chunks2 b hrec
            subst hchunks
            rw [msgSpec_no_newline (c :: t) hall]
            constructor
            · simp [List.flatten_cons, hih1, msgSpec_nil]
            · simpa [msgSpec_nil] using hih2
          | cons c2 t2 =>
            have hfalse := dropWhile_head_false notCRLF (c :: t) c2 t2 hdrop
            have hctw : (c :: t).takeWhile notCRLF = c :: t.takeWhile notCRLF := by
              simp [List.takeWhile_cons, hnc]
            by_cases hc2n : c2 = '\n'
            · subst hc2n
              have hnle := notLineEnding_dropNewline (c :: t) t2 hdrop
              have hsplit : (c :: t).takeWhile notCRLF ++ ('\n' :: t2) = c :: t := by
                rw [← hdrop]
                exact List.takeWhile_append_dropWhile notCRLF (c :: t)
              have hchunk := msgChunk_other c t ('\n' :: t2)
                ((c :: t).takeWhile notCRLF) hc hnle hsplit
              have hlen := congrArg List.length hsplit
              simp only [List.length_append, List.length_cons, hctw] at hlen
              obtain ⟨chunks2, hchunks, hrec⟩ :=
                manyTill_step_ok fuel (c :: t) ('\n' :: t2)
                  ((c :: t).takeWhile notCRLF) i2 chunks b hend hchunk
                  (by simp only [List.length_cons]; omega) h
              obtain ⟨hih1, hih2⟩ := ih ('\n' :: t2) i2 chunks2 b hrec
              subst hchunks
              have hms := msgSpec_content ((c :: t).takeWhile notCRLF) ('\n' :: t2)
                (takeWhile_no_newline (c :: t))
              rw [hsplit] at hms
              rw [hms]
              constructor
              · simp only [List.flatten_cons]
                rw [hih1]
              · exact hih2
            · have hcr2 : c2 = '\r' := by
                simp [notCRLF] at hfalse
                by_cases h2 : c2 = '\r'
                · exact h2
                · exact absurd (hfalse h2) hc2n
              subst hcr2
              by_cases hhn : t2.head? = some '\n'
              · have hnle : notLineEnding (c :: t) =
                    PRes.ok ('\r' :: t2) ((c :: t).takeWhile notCRLF) := by
                  rw [notLineEnding_cr (c :: t) t2 hdrop, if_pos hhn]
                have hsplit : (c :: t).takeWhile notCRLF ++ ('\r' :: t2) = c :: t := by
                  rw [← hdrop]
                  exact List.takeWhile_append_dropWhile notCRLF (c :: t)
                have hchunk := msgChunk_other c t ('\r' :: t2)
                  ((c :: t).takeWhile notCRLF) hc hnle hsplit
                have hlen := congrArg List.length hsplit
                simp only [List.length_append, List.length_cons, hctw] at hlen
                obtain ⟨chunks2, hchunks, hrec⟩ :=
                  manyTill_step_ok fuel (c :: t) ('\r' :: t2)
                    ((c :: t).takeWhile notCRLF) i2 chunks b hend hchunk
                    (by simp only [List.length_cons]; omega) h
                rw [manyTill_cr_fail fuel ('\r' :: t2) rfl] at hrec
                cases hrec
              · have hnle : notLineEnding (c :: t) = PRes.fail := by
                  rw [notLineEnding_cr (c :: t) t2 hdrop, if_neg hhn]
                have hopt : optP (charP '\n') (c :: t) = PRes.ok (c :: t) none := by
                  simp [optP, charP, hc]
                have hchunk : msgChunk (c :: t) = PRes.fail := by
                  simp [msgChunk, recognizeP, pairP, pbind, hopt, hnle]
                simp [manyTillP, hend, hchunk] at h

end Y2

namespace Y2

/-- Claim C1: a record's message consists of the remainder of its first
physical line plus every subsequent physical line that does not start
with one-or-more digits followed by a literal hyphen (msgSpec is exactly
that line-based rule, and the unconsumed rest is the start of the next
record); in particular the two-record example input parses to exactly
two entries whose messages are "first line\ncontinuation line" (joined
by a newline) and "next entry". -/
theorem c1_message_rule :
    (∀ i rest msg, parse_message i = PRes.ok rest msg →
      msg = String.mk (msgSpec i).1 ∧ rest = (msgSpec i).2) ∧
    parse_string exampleInput.data = ParseOutcome.ok [exampleEntry1, exampleEntry2] := by
  constructor
  · intro i rest msg h
    cases hm : manyTillP msgChunk msgEnd (i.length + 1) i with
    | ok i1 r =>
      obtain ⟨chunks, b⟩ := r
      simp only [parse_message, hm, PRes.ok.injEq] at h
      obtain ⟨h1, h2⟩ := h
      obtain ⟨hs1, hs2⟩ := manyTill_msg_spec (i.length + 1) i i1 chunks b hm
      subst h1
      subst h2
      exact ⟨by rw [hs1], hs2⟩
    | fail => simp [parse_message, hm] at h
    | crash => simp [parse_message, hm] at h
  · decide

/-- Witness for C1: at the concrete input "first\n1-x" the message stops
before the record-like line "1-x", matching the specification. -/
theorem c1_witness :
    "first" = String.mk (msgSpec ("first\n1-x".data)).1 ∧
    "1-x".data = (msgSpec ("first\n1-x".data)).2 :=
  c1_message_rule.1 ("first\n1-x".data) ("1-x".data) "first" (by decide)

end Y2
